import Mathlib

/-!
Shallow embedding of the vector-store subsystem of the `codebase-index-mcp`
repository: `src/code_index/store.py` (class `VectorStore`) and
`src/code_index/device.py` (`resolve_device`).

Modelling conventions:
* Python floats are modelled as exact rationals (`ℚ`); the float literal
  `1.2` becomes the rational `6/5`.
* A 2-D `torch.Tensor` is modelled as a list of rows (`List (List ℚ)`).
* Fallible operations return `Except StoreErr _`; a raised exception in the
  source corresponds to `.error`, and both raise points precede every
  mutation of `self`, so an error leaves the modelled state unchanged.
* File-system effects are modelled by explicit disk/state values; hardware
  availability probes are passed as booleans.
-/

namespace CodeIndex

/-- One metadata dict held in `VectorStore._records`
    (built at store.py lines 133-141). -/
structure MetaRecord where
  path : String
  line_start : Int
  line_end : Int
  file_hash : String
deriving DecidableEq, Repr

instance : Inhabited MetaRecord := ⟨⟨"", 0, 0, ""⟩⟩

/-- The `VectorRecord` dataclass (store.py lines 25-31). -/
structure VectorRecord where
  embedding : List ℚ
  path : String
  line_start : Int
  line_end : Int
  file_hash : String
deriving DecidableEq, Repr

/-- The metadata dict extracted from a `VectorRecord` on insert
    (store.py lines 133-141). -/
def VectorRecord.toMeta (r : VectorRecord) : MetaRecord :=
  ⟨r.path, r.line_start, r.line_end, r.file_hash⟩

/-- A 2-D tensor as a list of rows. -/
abbrev Matrix := List (List ℚ)

/-- Model of `Tensor.numel()` on a 2-D tensor: total number of entries. -/
def numel (m : Matrix) : Nat := (m.map List.length).sum

/-- In-memory state of a `VectorStore` after `_ensure_loaded`:
    `_records`, `_embeddings`, `_dimension` (store.py lines 43-45). -/
structure StoreState where
  records : List MetaRecord
  embeddings : Option Matrix
  dimension : Option Nat
deriving DecidableEq, Repr

/-- The state of a freshly created store with no files on disk. -/
def emptyStore : StoreState := ⟨[], none, none⟩

/-- Number of rows of the in-memory matrix (0 when no matrix is held). -/
def StoreState.rowCount (s : StoreState) : Nat :=
  match s.embeddings with
  | none => 0
  | some m => m.length

/-- Error conditions raised by the modelled code paths. -/
inductive StoreErr where
  /-- Raised as `ValueError` by `torch.tensor` on a ragged nested list. -/
  | tensorError
  /-- Raised as `StorageError("embedding dimension mismatch")` (store.py line 126). -/
  | dimensionMismatch
  /-- Raised as `StorageError("query embedding dimension mismatch")` (store.py line 164). -/
  | queryDimMismatch
  /-- Raised as `StorageError("metric must be ip or l2")` (store.py line 167). -/
  | badMetric
  /-- Raised as `StorageError("search_mode must be exact or approx")` (store.py line 170). -/
  | badSearchMode
  /-- Raised as `StorageError("approx.sample_rate must be in (0, 1]")` (store.py line 174). -/
  | badSampleRate
  /-- Raised as `ValueError` by `resolve_device` (device.py line 49). -/
  | badDevice
  /-- Raised as `StorageError("embeddings/meta length mismatch")` (store.py line 69). -/
  | corrupt
deriving DecidableEq, Repr

/-- Model of `VectorStore.insert` (store.py lines 114-143), in-memory effect plus the
    returned count.  `torch.tensor` on a list of equal-length lists builds a
    2-D tensor (so the `ndim != 2` raise at line 121 is unreachable for such
    input) and raises `ValueError` on a ragged one. -/
def insert (s : StoreState) (records : List VectorRecord) :
    Except StoreErr (StoreState × Nat) :=
  let batch := records
  if batch.isEmpty then .ok (s, 0)
  else
    let embs : Matrix := batch.map VectorRecord.embedding
    let d : Nat := (embs.headD []).length
    if ¬ embs.all (fun e => e.length = d) then .error .tensorError
    else
      let checkDim : Except StoreErr Nat :=
        match s.dimension with
        | none => .ok d
        | some dd => if d ≠ dd then .error .dimensionMismatch else .ok dd
      match checkDim with
      | .error e => .error e
      | .ok dimFixed =>
        let m : Matrix :=
          match s.embeddings with
          | none => embs
          | some old => if numel old = 0 then embs else old ++ embs
        .ok (⟨s.records ++ batch.map VectorRecord.toMeta, some m, some dimFixed⟩,
             batch.length)

/-- Model of `VectorStore.delete_by_paths` (store.py lines 215-238).
    Returns (new state, count deleted, whether `_save` was invoked). -/
def delete_by_paths (s : StoreState) (paths : List String) :
    StoreState × Nat × Bool :=
  if s.records.isEmpty then (s, 0, false)
  else
    let keepPairs := s.records.enum.filter (fun p => ¬ p.2.path ∈ paths)
    let keep_indices := keepPairs.map Prod.fst
    let new_records := keepPairs.map Prod.snd
    let deleted := s.records.length - new_records.length
    if deleted = 0 then (s, 0, false)
    else
      let (embs, dim) :=
        match s.embeddings with
        | some m =>
          if numel m > 0 then
            if keep_indices.isEmpty then (none, none)
            else (some (keep_indices.map (fun i => m.getD i [])), s.dimension)
          else (some m, s.dimension)
        | none => (none, s.dimension)
      (⟨new_records, embs, dim⟩, deleted, true)

/-- The content of the `vectors/` directory as observed by `_load`:
    `meta.json` as its (dimension, records) payload when present, and
    `embeddings.pt` as an already-2-D tensor when present (the
    `ndim != 2` corruption raise at store.py line 64 is about non-2-D
    file content, which this 2-D-typed model does not represent). -/
structure DiskState where
  meta : Option (Option Nat × List MetaRecord)
  matrixFile : Option Matrix
deriving DecidableEq, Repr

/-- Model of `VectorStore._load` (store.py lines 48-72), producing the in-memory
    state or the corruption error. -/
def load (disk : DiskState) : Except StoreErr StoreState :=
  let dimrec : Option Nat × List MetaRecord :=
    match disk.meta with
    | none => (none, [])
    | some (d, rs) => (d, rs)
  let dimension := dimrec.1
  let records := dimrec.2
  match disk.matrixFile with
  | none => .ok ⟨records, none, dimension⟩
  | some m =>
    let dimension :=
      if dimension = none ∧ 0 < numel m then some (m.headD []).length
      else dimension
    if ¬ records.isEmpty ∧ m.length ≠ records.length then .error .corrupt
    else .ok ⟨records, some m, dimension⟩

/-- Python `str.lower()`, modelled characterwise (the inputs compared in
    the source are ASCII: device names, metric names, search modes); this
    structurally recursive form evaluates by `decide`. -/
def strLower (s : String) : String := ⟨s.data.map Char.toLower⟩

/-- Python `a or b` for an optional string `a`: both `None` and `""` are
    falsy, selecting `b`. -/
def pyOr (a : Option String) (b : String) : String :=
  match a with
  | none => b
  | some s => if s = "" then b else s

/-- Model of `resolve_device` (device.py lines 35-49).  The availability probes
    `is_cuda_available` / `is_mps_available` never raise and are passed in
    as booleans. -/
def resolve_device (cudaAvail mpsAvail : Bool) (preferred : Option String) :
    Except StoreErr String :=
  let choice := strLower (pyOr preferred "auto")
  if choice = "auto" then
    .ok (if cudaAvail then "cuda" else if mpsAvail then "mps" else "cpu")
  else if choice = "cuda" then .ok (if cudaAvail then "cuda" else "cpu")
  else if choice = "mps" then .ok (if mpsAvail then "mps" else "cpu")
  else if choice = "cpu" then .ok "cpu"
  else .error .badDevice

/-- Model of `VectorStore._sample_indices` (store.py lines 94-100).  Python's `int()`
    on a positive value truncates, i.e. takes the floor. -/
def sample_indices (total : Nat) (sample_rate : ℚ) : List Nat :=
  if total = 0 then []
  else if 1 ≤ sample_rate then List.range total
  else
    let step : Nat := max (⌊1 / sample_rate⌋).toNat 1
    List.range' 0 ((total + step - 1) / step) step

/-- Model of `VectorStore._chunk_size` (store.py lines 102-112).  The float literal
    `1.2` is the exact rational `6/5`; `int()` on a nonnegative value is
    the floor. -/
def chunk_size (total dim : Nat) (max_vram_mb : Option Nat) : Nat :=
  if total = 0 then 0
  else
    match max_vram_mb with
    | none => total
    | some mb =>
      let bytes_per_vector := dim * 4
      if bytes_per_vector = 0 then total
      else
        let budget := mb * 1024 * 1024
        let max_vectors :=
          max (⌊(budget : ℚ) / ((bytes_per_vector : ℚ) * (6 / 5))⌋).toNat 1
        min total max_vectors

/-- Dot product of two equal-length vectors: one entry of `chunk @ query`
    (store.py line 192). -/
def dot : List ℚ → List ℚ → ℚ
  | [], _ => 0
  | _ :: _, [] => 0
  | x :: xs, y :: ys => x * y + dot xs ys

/-- Squared euclidean distance: one entry of `(diff * diff).sum(dim=1)`
    (store.py lines 194-195). -/
def sqDist : List ℚ → List ℚ → ℚ
  | [], _ => 0
  | _ :: _, [] => 0
  | x :: xs, y :: ys => (x - y) * (x - y) + sqDist xs ys

/-- Score of one stored row against the query (store.py lines 191-195):
    dot product for `ip`, negated squared distance for `l2`. -/
def rowScore (metric : String) (query row : List ℚ) : ℚ :=
  if metric = "ip" then dot row query else -(sqDist row query)

/-- Ordering of `(score, original index)` pairs: strictly larger score
    first, ties by ascending original index.  This is the deterministic
    model of `torch.topk` followed by Python's stable
    `sorted(best, key=score, reverse=True)` (store.py lines 199-204). -/
def scoreGE (a b : ℚ × Nat) : Prop :=
  b.1 < a.1 ∨ (a.1 = b.1 ∧ a.2 ≤ b.2)

/-- Strict version of `scoreGE`. -/
def scoreGT (a b : ℚ × Nat) : Prop :=
  b.1 < a.1 ∨ (a.1 = b.1 ∧ a.2 < b.2)

instance : DecidableRel scoreGE := fun _ _ => by
  unfold scoreGE; infer_instance

instance : DecidableRel scoreGT := fun _ _ => by
  unfold scoreGT; infer_instance

instance : IsTotal (ℚ × Nat) scoreGE :=
  ⟨by
    intro a b
    rcases lt_trichotomy a.1 b.1 with h | h | h
    · exact Or.inr (Or.inl h)
    · rcases Nat.le_total a.2 b.2 with h2 | h2
      · exact Or.inl (Or.inr ⟨h, h2⟩)
      · exact Or.inr (Or.inr ⟨h.symm, h2⟩)
    · exact Or.inl (Or.inl h)⟩

instance : IsTrans (ℚ × Nat) scoreGE :=
  ⟨by
    intro a b c hab hbc
    rcases hab with h1 | ⟨e1, l1⟩
    · rcases hbc with h2 | ⟨e2, _⟩
      · exact Or.inl (h2.trans h1)
      · exact Or.inl (e2 ▸ h1)
    · rcases hbc with h2 | ⟨e2, l2⟩
      · exact Or.inl (e1 ▸ h2)
      · exact Or.inr ⟨e1.trans e2, l1.trans l2⟩⟩

instance : IsAntisymm (ℚ × Nat) scoreGE :=
  ⟨by
    intro a b hab hba
    rcases hab with h1 | ⟨e1, l1⟩
    · rcases hba with h2 | ⟨e2, _⟩
      · exact absurd (h1.trans h2) (lt_irrefl _)
      · exact absurd h1 (e2 ▸ lt_irrefl _)
    · rcases hba with h2 | ⟨_, l2⟩
      · exact absurd h2 (e1 ▸ lt_irrefl _)
      · exact Prod.ext e1 (Nat.le_antisymm l1 l2)⟩

/-- Sort scored pairs by descending score, ties by ascending index. -/
def sortPairs (l : List (ℚ × Nat)) : List (ℚ × Nat) :=
  l.insertionSort scoreGE

/-- The top `k` scored pairs in sorted order. -/
def selectTop (k : Nat) (l : List (ℚ × Nat)) : List (ℚ × Nat) :=
  (sortPairs l).take k

/-- Partition a list into consecutive chunks of size `c` (size `1` when
    `c = 0`; the call sites always pass `c ≥ 1`), modelling
    `range(0, len(indices), chunk_size)` slicing (store.py lines 188-189). -/
def chunksOf (c : Nat) : List α → List (List α)
  | [] => []
  | x :: xs => (x :: xs.take (c - 1)) :: chunksOf c (xs.drop (c - 1))
termination_by l => l.length
decreasing_by
  simp only [List.length_drop, List.length_cons]
  omega

/-- One iteration of the chunked top-k loop (store.py lines 188-204):
    take the chunk-local `torch.topk` with `k = min(top_k, len(chunk))`
    (skipped when that `k` is 0), append it to the running best list, then
    re-sort descending and truncate to `top_k`. -/
def mergeStep (top_k : Nat) (best chunk : List (ℚ × Nat)) : List (ℚ × Nat) :=
  let k := min top_k chunk.length
  if k = 0 then best
  else selectTop top_k (best ++ selectTop k chunk)

/-- One returned search hit (store.py lines 205-213). -/
structure SearchResult where
  path : String
  line_start : Int
  line_end : Int
  score : ℚ
deriving DecidableEq, Repr

/-- Map one `(score, index)` pair back through the record list
    (store.py lines 205-213). -/
def resultOf (s : StoreState) (p : ℚ × Nat) : SearchResult :=
  { path := (s.records.getD p.2 default).path
    line_start := (s.records.getD p.2 default).line_start
    line_end := (s.records.getD p.2 default).line_end
    score := p.1 }

/-- The `approx` sub-config (`ApproxConfig` in config.py). -/
structure ApproxConfig where
  sample_rate : ℚ
deriving DecidableEq, Repr

/-- The `VectorConfig` dataclass (config.py lines 92-98). -/
structure VectorConfig where
  device : String
  metric : String
  search_mode : String
  approx : ApproxConfig
  max_vram_mb : Option Nat
deriving DecidableEq, Repr

/-- Model of `VectorStore.search` (store.py lines 145-213).  cuda/mps availability is
    passed explicitly (the resolved device does not affect scores in this
    exact-arithmetic model).  A query tensor built from a `list[float]` is
    always 1-D, so the `query.ndim != 1` raise at line 161 is unreachable
    for the modelled inputs. -/
def search (s : StoreState) (cfg : VectorConfig) (cudaAvail mpsAvail : Bool)
    (embedding : List ℚ) (top_k : Nat)
    (device : Option String := none) (search_mode : Option String := none)
    (approx_sample_rate : Option ℚ := none) (max_vram_mb : Option Nat := none)
    (metric : Option String := none) :
    Except StoreErr (List SearchResult) :=
  let emptyish : Bool :=
    s.records.isEmpty ||
      (match s.embeddings with
       | none => true
       | some m => numel m == 0)
  if emptyish then .ok []
  else
    let m := s.embeddings.getD []
    let dimension := (m.headD []).length
    if embedding.length ≠ dimension then .error .queryDimMismatch
    else
      let metricv := strLower (pyOr metric cfg.metric)
      if ¬ (metricv = "ip" ∨ metricv = "l2") then .error .badMetric
      else
        let modev := strLower (pyOr search_mode cfg.search_mode)
        if ¬ (modev = "exact" ∨ modev = "approx") then .error .badSearchMode
        else
          let indicesE : Except StoreErr (List Nat) :=
            if modev = "approx" then
              let rate := approx_sample_rate.getD cfg.approx.sample_rate
              if ¬ (0 < rate ∧ rate ≤ 1) then .error .badSampleRate
              else .ok (sample_indices s.records.length rate)
            else .ok (List.range s.records.length)
          match indicesE with
          | .error e => .error e
          | .ok indices =>
            if indices.isEmpty then .ok []
            else
              match resolve_device cudaAvail mpsAvail
                  (some (pyOr device cfg.device)) with
              | .error e => .error e
              | .ok _resolved =>
                let mbv := max_vram_mb.or cfg.max_vram_mb
                let csize := chunk_size indices.length dimension mbv
                if csize = 0 then .ok []
                else
                  let best :=
                    (chunksOf csize indices).foldl
                      (fun best chunkIdx =>
                        mergeStep top_k best
                          (chunkIdx.map
                            (fun i => (rowScore metricv embedding (m.getD i []), i))))
                      []
                  .ok (best.map (resultOf s))

/-- A public mutating operation on the store. -/
inductive Op where
  | ins (batch : List VectorRecord)
  | del (paths : List String)

/-- Apply one operation; a raised exception leaves the state as it was,
    since both raise points in `insert` precede every mutation of `self`. -/
def applyOp (s : StoreState) : Op → StoreState
  | .ins batch =>
      match insert s batch with
      | .ok (s', _) => s'
      | .error _ => s
  | .del paths => (delete_by_paths s paths).1

/-- Apply a sequence of operations from left to right. -/
def applyOps (s : StoreState) (ops : List Op) : StoreState :=
  ops.foldl applyOp s

/-- Well-formedness of a store state: either fully empty, or the matrix and
    dimension are present, the dimension is positive, the spec's alignment
    invariant `len(records) == matrix.row_count` holds and every row has the
    established dimension. -/
def WF (s : StoreState) : Prop :=
  (s.embeddings = none ∧ s.records = [] ∧ s.dimension = none) ∨
  (∃ m D, s.embeddings = some m ∧ s.dimension = some D ∧ 0 < D ∧
    m.length = s.records.length ∧ ∀ r ∈ m, r.length = D)

/-- An operation is dimension-positive when every embedding it inserts is
    nonempty. -/
def ValidOp : Op → Prop
  | .ins batch => ∀ r ∈ batch, r.embedding.length ≠ 0
  | .del _ => True

/-- The rows held by a store: the matrix content, empty when absent. -/
def StoreState.rowsList (s : StoreState) : Matrix := s.embeddings.getD []

/-! ### Properties of the scored-pair order and of `selectTop` -/

theorem scoreGE_refl (a : ℚ × Nat) : scoreGE a a := Or.inr ⟨rfl, le_refl _⟩

theorem scoreGT_iff {a b : ℚ × Nat} : scoreGT a b ↔ scoreGE a b ∧ a ≠ b := by
  constructor
  · rintro (h | ⟨e, h⟩)
    · exact ⟨Or.inl h, fun hc => absurd h (hc ▸ lt_irrefl _)⟩
    · exact ⟨Or.inr ⟨e, h.le⟩,
        fun hc => absurd h (hc ▸ lt_irrefl _)⟩
  · rintro ⟨h | ⟨e, h⟩, hne⟩
    · exact Or.inl h
    · refine Or.inr ⟨e, lt_of_le_of_ne h fun hc => hne (Prod.ext e hc)⟩

theorem scoreGT_irrefl (a : ℚ × Nat) : ¬ scoreGT a a := by
  intro h
  exact (scoreGT_iff.mp h).2 rfl

theorem not_scoreGT_of_scoreGE {a b : ℚ × Nat} (h : scoreGE a b) :
    ¬ scoreGT b a := by
  intro hgt
  rcases scoreGT_iff.mp hgt with ⟨hge, hne⟩
  exact hne (antisymm hge h)

theorem scoreGT_of_scoreGE_of_ne {a b : ℚ × Nat} (h : scoreGE a b)
    (hne : a ≠ b) : scoreGT a b := scoreGT_iff.mpr ⟨h, hne⟩

theorem sortPairs_perm (l : List (ℚ × Nat)) : (sortPairs l).Perm l :=
  List.perm_insertionSort _ l

theorem sortPairs_sorted (l : List (ℚ × Nat)) :
    List.Sorted scoreGE (sortPairs l) :=
  List.sorted_insertionSort _ l

theorem sortPairs_nodup {l : List (ℚ × Nat)} (h : l.Nodup) :
    (sortPairs l).Nodup :=
  (sortPairs_perm l).nodup_iff.mpr h

theorem selectTop_sorted (k : Nat) (l : List (ℚ × Nat)) :
    List.Sorted scoreGE (selectTop k l) :=
  List.Pairwise.sublist (List.take_sublist k _) (sortPairs_sorted l)

theorem selectTop_nodup {k : Nat} {l : List (ℚ × Nat)} (h : l.Nodup) :
    (selectTop k l).Nodup :=
  (sortPairs_nodup h).sublist (List.take_sublist k _)

theorem selectTop_subset {k : Nat} {l : List (ℚ × Nat)} {x : ℚ × Nat}
    (h : x ∈ selectTop k l) : x ∈ l :=
  (sortPairs_perm l).mem_iff.mp (List.take_subset k _ h)

theorem selectTop_countP_le (k : Nat) (l : List (ℚ × Nat))
    (p : ℚ × Nat → Bool) : (selectTop k l).countP p ≤ l.countP p := by
  calc (selectTop k l).countP p ≤ (sortPairs l).countP p :=
        List.Sublist.countP_le p (List.take_sublist k _)
    _ = l.countP p := (sortPairs_perm l).countP_eq p

theorem selectTop_length (k : Nat) (l : List (ℚ × Nat)) :
    (selectTop k l).length = min k l.length := by
  rw [selectTop, List.length_take, (sortPairs_perm l).length_eq]

/-- Membership in the first `k` entries of a `scoreGE`-sorted duplicate-free
    list is exactly: membership, with fewer than `k` strictly better
    elements. -/
theorem mem_take_sorted_iff {S : List (ℚ × Nat)}
    (hs : List.Sorted scoreGE S) (hnd : S.Nodup) {k : Nat} {x : ℚ × Nat} :
    x ∈ S.take k ↔
      x ∈ S ∧ S.countP (fun y => decide (scoreGT y x)) < k := by
  induction S generalizing k with
  | nil => simp
  | cons a T ih =>
    rcases List.sorted_cons.mp hs with ⟨hhead, hT⟩
    rcases List.nodup_cons.mp hnd with ⟨hnotmem, hndT⟩
    match k with
    | 0 => simp
    | k + 1 =>
      rw [List.take_succ_cons]
      by_cases hxa : x = a
      · subst hxa
        have h1 : (decide (scoreGT x x)) = false := by
          simp [scoreGT_irrefl x]
        have h2 : T.countP (fun y => decide (scoreGT y x)) = 0 := by
          rw [List.countP_eq_zero]
          intro y hy
          simpa using not_scoreGT_of_scoreGE (hhead y hy)
        simp [List.countP_cons, h1, h2]
      · simp only [List.mem_cons, hxa, false_or]
        rw [ih hT hndT]
        by_cases hxT : x ∈ T
        · have hGT : scoreGT a x :=
            scoreGT_of_scoreGE_of_ne (hhead x hxT) (fun hc => hxa hc.symm)
          rw [List.countP_cons_of_pos _ _ (by simpa using hGT)]
          simp only [hxT, true_and]
          omega
        · simp [hxT]

/-- Membership characterisation of `selectTop` for duplicate-free input. -/
theorem mem_selectTop_iff {l : List (ℚ × Nat)} (h : l.Nodup) {k : Nat}
    {x : ℚ × Nat} :
    x ∈ selectTop k l ↔
      x ∈ l ∧ l.countP (fun y => decide (scoreGT y x)) < k := by
  have := mem_take_sorted_iff (sortPairs_sorted l) (sortPairs_nodup h)
    (k := k) (x := x)
  rwa [(sortPairs_perm l).mem_iff,
    (sortPairs_perm l).countP_eq (fun y => decide (scoreGT y x))] at this

/-- Every element strictly better than a selected element is itself
    selected, so the dominator count inside `selectTop k l` equals the one
    in `l`. -/
theorem countP_GT_selectTop {l : List (ℚ × Nat)} {k : Nat} {x : ℚ × Nat}
    (hx : x ∈ selectTop k l) :
    (selectTop k l).countP (fun y => decide (scoreGT y x)) =
      l.countP (fun y => decide (scoreGT y x)) := by
  have hsplit :
      l.countP (fun y => decide (scoreGT y x)) =
        (selectTop k l).countP (fun y => decide (scoreGT y x)) +
          ((sortPairs l).drop k).countP (fun y => decide (scoreGT y x)) := by
    rw [← List.countP_append, selectTop, List.take_append_drop,
      (sortPairs_perm l).countP_eq]
  have hdrop :
      ((sortPairs l).drop k).countP (fun y => decide (scoreGT y x)) = 0 := by
    rw [List.countP_eq_zero]
    intro y hy
    simp only [decide_eq_true_eq]
    exact not_scoreGT_of_scoreGE
      ((sortPairs_sorted l).rel_of_mem_take_of_mem_drop hx hy)
  omega

/-- If an element of `l` is *not* selected, all `k` selected elements beat
    it (and there are exactly `k` of them). -/
theorem selectTop_dominates_unselected {l : List (ℚ × Nat)} {k : Nat}
    {y : ℚ × Nat} (hy : y ∈ l) (hy' : y ∉ selectTop k l) :
    (selectTop k l).length = k ∧ ∀ z ∈ selectTop k l, scoreGE z y := by
  have hmem : y ∈ sortPairs l := (sortPairs_perm l).mem_iff.mpr hy
  have hdrop : y ∈ (sortPairs l).drop k := by
    rcases (List.mem_append.mp
      ((List.take_append_drop k (sortPairs l)).symm ▸ hmem)) with h | h
    · exact absurd h hy'
    · exact h
  have hlen : k < (sortPairs l).length := by
    by_contra hc
    rw [List.drop_eq_nil_of_le (by omega)] at hdrop
    exact absurd hdrop (List.not_mem_nil y)
  refine ⟨by simp [selectTop, List.length_take]; omega, ?_⟩
  intro z hz
  exact (sortPairs_sorted l).rel_of_mem_take_of_mem_drop hz hdrop

/-- For an element `x` outside a duplicate-free list `Y`, if fewer than `k`
    of the selected elements of `Y` beat `x`, then *every* element of `Y`
    beating `x` is selected. -/
theorem countP_GT_other_side {k : Nat} {Y : List (ℚ × Nat)} {x : ℚ × Nat}
    (hY : Y.Nodup) (hxY : x ∉ Y)
    (hroom : (selectTop k Y).countP (fun y => decide (scoreGT y x)) < k) :
    Y.countP (fun y => decide (scoreGT y x)) =
      (selectTop k Y).countP (fun y => decide (scoreGT y x)) := by
  have hsplit :
      Y.countP (fun y => decide (scoreGT y x)) =
        (selectTop k Y).countP (fun y => decide (scoreGT y x)) +
          ((sortPairs Y).drop k).countP (fun y => decide (scoreGT y x)) := by
    rw [← List.countP_append, selectTop, List.take_append_drop,
      (sortPairs_perm Y).countP_eq]
  have hdrop :
      ((sortPairs Y).drop k).countP (fun y => decide (scoreGT y x)) = 0 := by
    by_contra hne
    rcases List.countP_pos_iff.mp (Nat.pos_of_ne_zero hne) with ⟨y, hyd, hyx⟩
    rw [decide_eq_true_eq] at hyx
    have hyY : y ∈ Y :=
      (sortPairs_perm Y).mem_iff.mp (List.drop_subset k _ hyd)
    have hynot : y ∉ selectTop k Y := by
      intro hyin
      have hnd : ((sortPairs Y).take k ++ (sortPairs Y).drop k).Nodup := by
        rw [List.take_append_drop]
        exact sortPairs_nodup hY
      exact List.disjoint_of_nodup_append hnd hyin hyd
    rcases selectTop_dominates_unselected hyY hynot with ⟨hlen, hdom⟩
    have hall : (selectTop k Y).countP (fun z => decide (scoreGT z x)) =
        (selectTop k Y).length := by
      rw [List.countP_eq_length]
      intro z hz
      rw [decide_eq_true_eq]
      have hzx : scoreGE z x :=
        IsTrans.trans z y x (hdom z hz) (scoreGT_iff.mp hyx).1
      refine scoreGT_of_scoreGE_of_ne hzx (fun hc => hxY ?_)
      exact hc ▸ selectTop_subset hz
    omega
  omega

/-- The key merge property of the chunked evaluation: taking the per-side
    top `k` before merging does not change the merged top `k`, for
    duplicate-free input. -/
theorem selectTop_selectTop_append {k : Nat} {A B : List (ℚ × Nat)}
    (h : (A ++ B).Nodup) :
    selectTop k (selectTop k A ++ selectTop k B) = selectTop k (A ++ B) := by
  rcases List.nodup_append.mp h with ⟨hA, hB, hdisj⟩
  have hTT : (selectTop k A ++ selectTop k B).Nodup :=
    List.Nodup.append (selectTop_nodup hA) (selectTop_nodup hB)
      (fun x hx hx' => hdisj (selectTop_subset hx) (selectTop_subset hx'))
  apply List.eq_of_perm_of_sorted _ (selectTop_sorted _ _) (selectTop_sorted _ _)
  rw [List.perm_ext_iff_of_nodup (selectTop_nodup hTT) (selectTop_nodup h)]
  intro x
  rw [mem_selectTop_iff hTT, mem_selectTop_iff h]
  constructor
  · rintro ⟨hmem, hcnt⟩
    rw [List.countP_append] at hcnt
    rw [List.mem_append] at hmem
    rw [List.countP_append]
    rcases hmem with hxT | hxT
    · have hxA : x ∈ A := selectTop_subset hxT
      have hxB : x ∉ B := hdisj hxA
      have hcA := countP_GT_selectTop hxT
      have hcB := countP_GT_other_side (k := k) hB hxB (by omega)
      exact ⟨List.mem_append.mpr (Or.inl hxA), by omega⟩
    · have hxB : x ∈ B := selectTop_subset hxT
      have hxA : x ∉ A := fun hc => hdisj hc hxB
      have hcB := countP_GT_selectTop hxT
      have hcA := countP_GT_other_side (k := k) hA hxA (by omega)
      exact ⟨List.mem_append.mpr (Or.inr hxB), by omega⟩
  · rintro ⟨hmem, hcnt⟩
    rw [List.countP_append] at hcnt
    rw [List.mem_append] at hmem
    have hTA := selectTop_countP_le k A (fun y => decide (scoreGT y x))
    have hTB := selectTop_countP_le k B (fun y => decide (scoreGT y x))
    rw [List.countP_append]
    rcases hmem with hxA | hxB
    · have hin : x ∈ selectTop k A :=
        (mem_selectTop_iff hA).mpr ⟨hxA, by omega⟩
      exact ⟨List.mem_append.mpr (Or.inl hin), by omega⟩
    · have hin : x ∈ selectTop k B :=
        (mem_selectTop_iff hB).mpr ⟨hxB, by omega⟩
      exact ⟨List.mem_append.mpr (Or.inr hin), by omega⟩

/-! ### The chunked fold computes the global top-k -/

/-- Taking `min k |l|` elements instead of `k` changes nothing. -/
theorem selectTop_min (k : Nat) (l : List (ℚ × Nat)) :
    selectTop (min k l.length) l = selectTop k l := by
  unfold selectTop
  have hlen : (sortPairs l).length = l.length := (sortPairs_perm l).length_eq
  rcases Nat.le_total k l.length with h | h
  · rw [Nat.min_eq_left h]
  · rw [Nat.min_eq_right h, ← hlen, List.take_length,
      List.take_of_length_le (by omega)]

theorem chunksOf_flatten (c : Nat) : ∀ l : List α, (chunksOf c l).flatten = l
  | [] => by rw [chunksOf]; rfl
  | x :: xs => by
    rw [chunksOf, List.flatten_cons, chunksOf_flatten c (xs.drop (c - 1))]
    simp
termination_by l => l.length
decreasing_by
  simp only [List.length_drop, List.length_cons]
  omega

theorem mergeStep_zero (best chunk : List (ℚ × Nat)) :
    mergeStep 0 best chunk = best := by
  simp [mergeStep]

theorem foldl_mergeStep_zero (chunks : List (List (ℚ × Nat)))
    (init : List (ℚ × Nat)) : chunks.foldl (mergeStep 0) init = init := by
  induction chunks generalizing init with
  | nil => rfl
  | cons c cs ih =>
    rw [List.foldl_cons, mergeStep_zero]
    exact ih init

/-- The running best list after any number of chunks is the global top-k of
    the candidates seen so far: merging per-chunk tops with re-sort and
    truncation loses nothing. -/
theorem foldl_mergeStep_eq (k c : Nat) :
    ∀ (n : Nat) (l P : List (ℚ × Nat)), l.length ≤ n → (P ++ l).Nodup →
      (chunksOf c l).foldl (mergeStep k) (selectTop k P) =
        selectTop k (P ++ l) := by
  intro n
  induction n with
  | zero =>
    intro l P hl _
    have hnil : l = [] := List.length_eq_zero.mp (Nat.le_zero.mp hl)
    subst hnil
    rw [chunksOf, List.foldl_nil, List.append_nil]
  | succ n ih =>
    intro l P hl hnd
    by_cases hk : k = 0
    · subst hk
      rw [foldl_mergeStep_zero]
      rfl
    · match l with
      | [] => rw [chunksOf, List.foldl_nil, List.append_nil]
      | x :: xs =>
        rw [chunksOf, List.foldl_cons]
        have hCrest : (x :: xs.take (c - 1)) ++ xs.drop (c - 1) = x :: xs := by
          rw [List.cons_append, List.take_append_drop]
        have hndPC : (P ++ (x :: xs.take (c - 1)) ++ xs.drop (c - 1)).Nodup := by
          rw [List.append_assoc, hCrest]
          exact hnd
        have hstep :
            mergeStep k (selectTop k P) (x :: xs.take (c - 1)) =
              selectTop k (P ++ (x :: xs.take (c - 1))) := by
          have hmin : ¬ min k (x :: xs.take (c - 1)).length = 0 := by
            simp only [List.length_cons]
            omega
          rw [mergeStep]
          simp only [hmin, if_false]
          rw [selectTop_min, selectTop_selectTop_append
            ((List.nodup_append.mp hndPC).1)]
        rw [hstep]
        have hlen : (xs.drop (c - 1)).length ≤ n := by
          simp only [List.length_drop]
          simp only [List.length_cons] at hl
          omega
        have := ih (xs.drop (c - 1)) (P ++ (x :: xs.take (c - 1))) hlen hndPC
        rw [this, List.append_assoc, hCrest]

/-- Chunked evaluation with any chunk size equals the global top-k. -/
theorem foldl_mergeStep_selectTop (k c : Nat) (l : List (ℚ × Nat))
    (h : l.Nodup) :
    (chunksOf c l).foldl (mergeStep k) [] = selectTop k l := by
  have h0 : selectTop k ([] : List (ℚ × Nat)) = [] := by
    simp [selectTop, sortPairs]
  have := foldl_mergeStep_eq k c l.length l [] le_rfl (by simpa using h)
  rw [h0] at this
  simpa using this

theorem chunksOf_map (c : Nat) (f : α → β) : ∀ l : List α,
    chunksOf c (l.map f) = (chunksOf c l).map (List.map f)
  | [] => by rw [List.map_nil, chunksOf, chunksOf]; rfl
  | x :: xs => by
    rw [List.map_cons, chunksOf, chunksOf, ← List.map_take, ← List.map_drop,
      chunksOf_map c f (xs.drop (c - 1))]
    simp
termination_by l => l.length
decreasing_by
  simp only [List.length_drop, List.length_cons]
  omega

/-- The fold performed by `search` (scoring each chunk of candidate indices,
    then merging) equals the global top-k of all scored candidates. -/
theorem search_fold_eq (k c : Nat) (indices : List Nat) (f : Nat → ℚ × Nat)
    (hnd : (indices.map f).Nodup) :
    (chunksOf c indices).foldl
        (fun best ch => mergeStep k best (ch.map f)) [] =
      selectTop k (indices.map f) := by
  rw [← List.foldl_map (List.map f) (mergeStep k), ← chunksOf_map]
  exact foldl_mergeStep_selectTop k c _ hnd

/-! ### Search reaches the fold: side conditions -/

theorem sample_indices_nodup (n : Nat) (r : ℚ) :
    (sample_indices n r).Nodup := by
  unfold sample_indices
  split
  · exact List.nodup_nil
  · split
    · exact List.nodup_range n
    · refine List.nodup_range' _ _ _ ?_
      exact Nat.lt_of_lt_of_le Nat.one_pos (Nat.le_max_right _ 1)

theorem sample_indices_ne_nil {n : Nat} (hn : 0 < n) (r : ℚ) :
    sample_indices n r ≠ [] := by
  unfold sample_indices
  rw [if_neg (by omega)]
  split
  · simp only [ne_eq, List.range_eq_nil]
    omega
  · intro hc
    rw [List.range'_eq_nil] at hc
    have hstep : 1 ≤ max (⌊1 / r⌋).toNat 1 := Nat.le_max_right _ 1
    rw [Nat.div_eq_zero_iff (by omega)] at hc
    omega

theorem chunk_size_pos {total : Nat} (h : 0 < total) (dim : Nat)
    (mb : Option Nat) : 0 < chunk_size total dim mb := by
  unfold chunk_size
  rw [if_neg (by omega)]
  match mb with
  | none => exact h
  | some v =>
    simp only
    split
    · exact h
    · exact Nat.lt_min.mpr ⟨h, Nat.lt_of_lt_of_le Nat.one_pos
        (Nat.le_max_right _ 1)⟩

theorem pairs_nodup (f : Nat → ℚ) {indices : List Nat}
    (h : indices.Nodup) : (indices.map (fun i => (f i, i))).Nodup :=
  h.map (fun _ _ hij => congrArg Prod.snd hij)

/-! ### The record/row selection performed by `delete_by_paths` -/

/-- Filtering the enumerated records and keeping the payloads is ordinary
    filtering. -/
theorem enum_filter_snd (p : α → Bool) (l : List α) :
    (l.enum.filter (fun q => p q.2)).map Prod.snd = l.filter p := by
  have h := List.filter_map Prod.snd l.enum (p := p)
  rw [List.enum_eq_enumFrom, List.enumFrom_map_snd] at h
  exact h.symm

/-- Indexing the matrix at the kept indices is exactly filtering the
    record/row pairs on the record predicate and keeping the rows. -/
theorem keep_select (p : α → Bool) (d : β) :
    ∀ (l : List α) (m : List β), m.length = l.length →
      (((l.enum.filter (fun q => p q.2)).map Prod.fst).map
          (fun i => m.getD i d))
        = ((l.zip m).filter (fun q => p q.1)).map Prod.snd := by
  intro l
  induction l with
  | nil => intro m _; rfl
  | cons a t ih =>
    intro m hm
    match m with
    | [] => simp at hm
    | b :: m' =>
      have hm' : m'.length = t.length := by simpa using hm
      have hshift :
          ((((t.enum.map (Prod.map (· + 1) id)).filter
              (fun q => p q.2)).map Prod.fst).map
            (fun i => (b :: m').getD i d))
            = (((t.enum.filter (fun q => p q.2)).map Prod.fst).map
                (fun i => m'.getD i d)) := by
        rw [List.filter_map]
        have hcomp : ((fun q : Nat × α => p q.2) ∘ Prod.map (· + 1) id) =
            (fun q : Nat × α => p q.2) := by
          funext q
          rcases q with ⟨i, x⟩
          rfl
        rw [hcomp, List.map_map, List.map_map, List.map_map]
        apply List.map_congr_left
        intro q _
        rcases q with ⟨i, x⟩
        rfl
      rw [List.enum_cons', List.zip_cons_cons, List.filter_cons,
        List.filter_cons]
      by_cases hpa : p a
      · simp only [hpa, if_true, List.map_cons]
        rw [hshift, ih m' hm']
        rfl
      · simp only [hpa, if_false, Bool.false_eq_true]
        rw [hshift, ih m' hm']

/-- The number of deleted records is the number of records whose path
    matches. -/
theorem length_filter_split (l : List MetaRecord) (paths : List String) :
    l.length = (l.filter (fun r => ¬ r.path ∈ paths)).length +
      (l.filter (fun r => r.path ∈ paths)).length := by
  have h := List.length_eq_length_filter_add
    (l := l) (fun r => decide (¬ r.path ∈ paths))
  have hcong : l.filter (fun r => !decide (¬ r.path ∈ paths)) =
      l.filter (fun r => r.path ∈ paths) := by
    apply List.filter_congr
    intro r _
    by_cases hr : r.path ∈ paths <;> simp [hr]
  rw [hcong] at h
  exact h

/-- Unfolding of `delete_by_paths` when at least one record matches, on an
    aligned store with a non-degenerate matrix. -/
theorem delete_eq (s : StoreState) (paths : List String) (m : Matrix)
    (hm : s.embeddings = some m) (halign : m.length = s.records.length)
    (hnum : numel m ≠ 0)
    (hdel : s.records.filter (fun r => r.path ∈ paths) ≠ []) :
    delete_by_paths s paths =
      (⟨s.records.filter (fun r => ¬ r.path ∈ paths),
        (if (s.records.filter (fun r => ¬ r.path ∈ paths)) = [] then none
         else some (((s.records.zip m).filter
            (fun q => ¬ q.1.path ∈ paths)).map Prod.snd)),
        (if (s.records.filter (fun r => ¬ r.path ∈ paths)) = [] then none
         else s.dimension)⟩,
       (s.records.filter (fun r => r.path ∈ paths)).length, true) := by
  have hne : s.records ≠ [] := by
    intro hc
    rw [hc] at hdel
    exact hdel rfl
  have hrecf : (s.records.enum.filter
      (fun q => decide (¬ q.2.path ∈ paths))).map Prod.snd =
      s.records.filter (fun r => decide (¬ r.path ∈ paths)) :=
    enum_filter_snd (fun r => decide (¬ r.path ∈ paths)) s.records
  have hkeep : (((s.records.enum.filter
        (fun q => decide (¬ q.2.path ∈ paths))).map Prod.fst).map
      (fun i => m.getD i ([] : List ℚ)))
      = ((s.records.zip m).filter
          (fun q => decide (¬ q.1.path ∈ paths))).map Prod.snd :=
    keep_select (fun r => decide (¬ r.path ∈ paths)) [] s.records m halign
  have hsplit := length_filter_split s.records paths
  have hdlen : 0 < (s.records.filter (fun r => r.path ∈ paths)).length :=
    List.length_pos.mpr hdel
  have hfstlen : (s.records.enum.filter
      (fun q => decide (¬ q.2.path ∈ paths))).length =
      (s.records.filter (fun r => decide (¬ r.path ∈ paths))).length := by
    have := congrArg List.length hrecf
    rwa [List.length_map] at this
  rw [delete_by_paths, if_neg (by simpa [List.isEmpty_iff] using hne)]
  simp only [hm]
  rw [hrecf]
  rw [if_neg (by omega)]
  rw [if_pos (Nat.pos_of_ne_zero hnum)]
  by_cases hkeep0 :
      s.records.filter (fun r => decide (¬ r.path ∈ paths)) = []
  · have hie : ((s.records.enum.filter
        (fun q => decide (¬ q.2.path ∈ paths))).map Prod.fst).isEmpty
          = true := by
      rw [List.isEmpty_iff, ← List.length_eq_zero, List.length_map, hfstlen,
        hkeep0]
      rfl
    rw [if_pos hie, if_pos hkeep0, if_pos hkeep0]
    simp only [Prod.mk.injEq, StoreState.mk.injEq, and_true, true_and]
    omega
  · have hie : ((s.records.enum.filter
        (fun q => decide (¬ q.2.path ∈ paths))).map Prod.fst).isEmpty
          = false := by
      rw [List.isEmpty_eq_false, ne_eq, ← List.length_eq_zero,
        List.length_map, hfstlen]
      intro hc
      exact hkeep0 (List.length_eq_zero.mp hc)
    rw [if_neg (by rw [hie]; exact Bool.false_ne_true), if_neg hkeep0,
      if_neg hkeep0]
    simp only [Prod.mk.injEq, StoreState.mk.injEq, and_true, true_and,
      Option.some.injEq]
    exact ⟨hkeep, by omega⟩


/-- Under valid exact-mode inputs, `search` succeeds and returns the global
    top-k of all stored rows scored against the query, independently of the
    memory budget. -/
theorem search_exact_eq (s : StoreState) (cfg : VectorConfig) (ca ma : Bool)
    (q : List ℚ) (k : Nat) (dev mode : Option String)
    (rate : Option ℚ) (mb : Option Nat) (met : Option String) (m : Matrix)
    (hm : s.embeddings = some m) (hne : s.records ≠ [])
    (hnumel : numel m ≠ 0) (hq : q.length = (m.headD []).length)
    (hmet : strLower (pyOr met cfg.metric) = "ip" ∨
      strLower (pyOr met cfg.metric) = "l2")
    (hmode : strLower (pyOr mode cfg.search_mode) = "exact")
    (hdev : ∃ d, resolve_device ca ma (some (pyOr dev cfg.device)) = .ok d) :
    search s cfg ca ma q k dev mode rate mb met =
      .ok ((selectTop k ((List.range s.records.length).map
          (fun i =>
            (rowScore (strLower (pyOr met cfg.metric)) q (m.getD i []), i)))).map
        (resultOf s)) := by
  obtain ⟨d, hd⟩ := hdev
  have hrec : s.records.isEmpty = false := by
    simpa [List.isEmpty_iff] using hne
  have hnum : (numel m == 0) = false := by simpa using hnumel
  have hnpos : 0 < s.records.length := List.length_pos.mpr hne
  have hrangene : (List.range s.records.length).isEmpty = false := by
    rw [List.isEmpty_eq_false]
    simp only [ne_eq, List.range_eq_nil]
    omega
  rw [search]
  simp only [hm, hrec, hnum, Bool.false_or, Bool.or_self, Option.getD_some,
    Bool.false_eq_true, if_false]
  rw [if_neg (by rw [hq]; exact fun hc => hc rfl)]
  rw [if_neg (not_not_intro hmet)]
  rw [if_neg (not_not_intro (Or.inl hmode))]
  rw [if_neg (by rw [hmode]; decide)]
  simp only [hrangene, Bool.false_eq_true, if_false, hd]
  rw [if_neg (Nat.pos_iff_ne_zero.mp
    (chunk_size_pos (by simpa using hnpos) _ _))]
  rw [search_fold_eq]
  exact pairs_nodup _ (List.nodup_range _)

/-- Calling `delete_by_paths` with no matching record returns 0, does not save, and
    leaves the state untouched. -/
theorem delete_eq_nomatch (s : StoreState) (paths : List String)
    (hnone : s.records.filter (fun r => r.path ∈ paths) = []) :
    delete_by_paths s paths = (s, 0, false) := by
  by_cases hrec : s.records = []
  · rw [delete_by_paths, if_pos (by simpa [List.isEmpty_iff] using hrec)]
  · have hrecf : (s.records.enum.filter
        (fun q => decide (¬ q.2.path ∈ paths))).map Prod.snd =
        s.records.filter (fun r => decide (¬ r.path ∈ paths)) :=
      enum_filter_snd (fun r => decide (¬ r.path ∈ paths)) s.records
    have hsplit := length_filter_split s.records paths
    have hlen0 : (s.records.filter (fun r => r.path ∈ paths)).length = 0 := by
      rw [hnone]
      rfl
    rw [delete_by_paths, if_neg (by simpa [List.isEmpty_iff] using hrec)]
    simp only [hrecf]
    rw [if_pos (by omega)]

/-! ### Characterisation of `insert` -/

/-- Running `insert` on a nonempty rectangular batch whose dimension matches (or
    establishes) the store dimension: count returned, records and rows
    appended in batch order, dimension fixed. -/
theorem insert_ok (s : StoreState) (batch : List VectorRecord) (d : Nat)
    (hne : batch ≠ []) (hrect : ∀ r ∈ batch, r.embedding.length = d)
    (hdim : s.dimension = none ∨ s.dimension = some d) :
    insert s batch = .ok
      (⟨s.records ++ batch.map VectorRecord.toMeta,
        some (match s.embeddings with
          | none => batch.map VectorRecord.embedding
          | some old =>
            if numel old = 0 then batch.map VectorRecord.embedding
            else old ++ batch.map VectorRecord.embedding),
        some d⟩, batch.length) := by
  match batch, hne with
  | b :: bs, _ =>
    have hd : b.embedding.length = d := hrect b (by simp)
    rw [insert]
    rw [if_neg (by simp)]
    simp only [List.map_cons, List.headD_cons, hd]
    rw [if_neg (not_not_intro (by
      rw [List.all_eq_true]
      intro e he
      rw [decide_eq_true_eq]
      rcases List.mem_cons.mp he with h | h
      · rw [h]
        exact hd
      · rcases List.mem_map.mp h with ⟨r, hr, hre⟩
        rw [← hre]
        exact hrect r (List.mem_cons_of_mem b hr)))]
    rcases hdim with h | h
    · rw [h]
    · rw [h]
      simp

/-- Running `insert` on a nonempty rectangular batch whose dimension disagrees with
    the established store dimension raises the mismatch error. -/
theorem insert_mismatch (s : StoreState) (batch : List VectorRecord)
    (d D : Nat) (hne : batch ≠ [])
    (hrect : ∀ r ∈ batch, r.embedding.length = d)
    (hdim : s.dimension = some D) (hdd : d ≠ D) :
    insert s batch = .error .dimensionMismatch := by
  match batch, hne with
  | b :: bs, _ =>
    have hd : b.embedding.length = d := hrect b (by simp)
    rw [insert]
    rw [if_neg (by simp)]
    simp only [List.map_cons, List.headD_cons, hd, hdim]
    rw [if_neg (not_not_intro (by
      rw [List.all_eq_true]
      intro e he
      rw [decide_eq_true_eq]
      rcases List.mem_cons.mp he with h | h
      · rw [h]
        exact hd
      · rcases List.mem_map.mp h with ⟨r, hr, hre⟩
        rw [← hre]
        exact hrect r (List.mem_cons_of_mem b hr)))]
    rw [if_pos hdd]

/-- Running `insert` on a ragged batch raises the tensor-construction error and
    changes nothing. -/
theorem insert_ragged (s : StoreState) (b : VectorRecord)
    (bs : List VectorRecord)
    (h : ¬ ∀ r ∈ b :: bs, r.embedding.length = b.embedding.length) :
    insert s (b :: bs) = .error .tensorError := by
  rw [insert]
  rw [if_neg (by simp)]
  simp only [List.map_cons, List.headD_cons]
  rw [if_pos (by
    intro hall
    apply h
    rw [List.all_eq_true] at hall
    intro r hr
    have := hall r.embedding (by
      rcases List.mem_cons.mp hr with hh | hh
      · rw [hh]
        exact List.mem_cons_self _ _
      · exact List.mem_cons_of_mem _ (List.mem_map_of_mem _ hh))
    rwa [decide_eq_true_eq] at this)]

/-- For a matrix of uniform positive row length, zero `numel` means no
    rows. -/
theorem numel_eq_zero_iff {m : Matrix} {D : Nat}
    (hrows : ∀ r ∈ m, r.length = D) (hD : 0 < D) :
    numel m = 0 ↔ m = [] := by
  constructor
  · intro h
    match m with
    | [] => rfl
    | r :: rs =>
      exfalso
      have hr : r.length = D := hrows r (by simp)
      have hn : numel (r :: rs) = r.length + numel rs := by
        simp [numel]
      omega
  · intro h
    subst h
    rfl

/-! ### Preservation of well-formedness -/

theorem WF_emptyStore : WF emptyStore := Or.inl ⟨rfl, rfl, rfl⟩

theorem WF_insert (s : StoreState) (batch : List VectorRecord)
    (hwf : WF s) (hval : ∀ r ∈ batch, r.embedding.length ≠ 0) :
    WF (applyOp s (.ins batch)) := by
  match batch with
  | [] =>
    simp only [applyOp, insert, List.isEmpty_nil, if_true]
    exact hwf
  | b :: bs =>
    by_cases hrect : ∀ r ∈ b :: bs, r.embedding.length = b.embedding.length
    · have hdpos : 0 < b.embedding.length :=
        Nat.pos_of_ne_zero (hval b (by simp))
      rcases hwf with ⟨hemb, hrec, hdimn⟩ | ⟨m, D, hm, hD, hDpos, hlen, hrows⟩
      · simp only [applyOp,
          insert_ok s (b :: bs) b.embedding.length (by simp) hrect
            (Or.inl hdimn), hemb, hrec]
        refine Or.inr ⟨(b :: bs).map VectorRecord.embedding,
          b.embedding.length, rfl, rfl, hdpos, by simp, ?_⟩
        intro r hr
        rcases List.mem_map.mp hr with ⟨v, hv, hre⟩
        rw [← hre]
        exact hrect v hv
      · by_cases hdD : b.embedding.length = D
        · simp only [applyOp,
            insert_ok s (b :: bs) b.embedding.length (by simp) hrect
              (Or.inr (by rw [hdD]; exact hD)), hm]
          by_cases hm0 : numel m = 0
          · have hmnil : m = [] := (numel_eq_zero_iff hrows hDpos).mp hm0
            have hrecnil : s.records = [] := by
              rw [hmnil] at hlen
              exact List.length_eq_zero.mp hlen.symm
            rw [if_pos hm0]
            refine Or.inr ⟨(b :: bs).map VectorRecord.embedding,
              b.embedding.length, rfl, rfl, hdpos, by simp [hrecnil], ?_⟩
            intro r hr
            rcases List.mem_map.mp hr with ⟨v, hv, hre⟩
            rw [← hre]
            exact hrect v hv
          · rw [if_neg hm0]
            refine Or.inr ⟨m ++ (b :: bs).map VectorRecord.embedding,
              b.embedding.length, rfl, rfl, hdpos, by simp [hlen], ?_⟩
            intro r hr
            rcases List.mem_append.mp hr with h | h
            · exact (hrows r h).trans hdD.symm
            · rcases List.mem_map.mp h with ⟨v, hv, hre⟩
              rw [← hre]
              exact hrect v hv
        · simp only [applyOp,
            insert_mismatch s (b :: bs) b.embedding.length D (by simp) hrect
              hD hdD]
          exact Or.inr ⟨m, D, hm, hD, hDpos, hlen, hrows⟩
    · simp only [applyOp, insert_ragged s b bs hrect]
      exact hwf

theorem WF_delete (s : StoreState) (paths : List String) (hwf : WF s) :
    WF (delete_by_paths s paths).1 := by
  by_cases hdel : s.records.filter (fun r => r.path ∈ paths) = []
  · rw [delete_eq_nomatch s paths hdel]
    exact hwf
  · have hrec : s.records ≠ [] := by
      intro hc
      rw [hc] at hdel
      exact hdel rfl
    rcases hwf with ⟨_, hr, _⟩ | ⟨m, D, hm, hD, hDpos, hlen, hrows⟩
    · exact absurd hr hrec
    · have hmne : m ≠ [] := by
        intro hc
        rw [hc] at hlen
        exact hrec (List.length_eq_zero.mp hlen.symm)
      have hnum : numel m ≠ 0 := fun hc =>
        hmne ((numel_eq_zero_iff hrows hDpos).mp hc)
      rw [delete_eq s paths m hm hlen hnum hdel]
      by_cases hkeep0 :
          s.records.filter (fun r => decide (¬ r.path ∈ paths)) = []
      · simp only [hkeep0, if_pos rfl]
        exact Or.inl ⟨rfl, rfl, rfl⟩
      · simp only [if_neg hkeep0]
        have hmapfst : ((s.records.zip m).filter
            (fun q => decide (¬ q.1.path ∈ paths))).map Prod.fst =
            s.records.filter (fun r => decide (¬ r.path ∈ paths)) := by
          have h := List.filter_map Prod.fst (s.records.zip m)
            (p := fun r => decide (¬ r.path ∈ paths))
          rw [List.map_fst_zip _ _ (le_of_eq hlen.symm)] at h
          exact h.symm
        refine Or.inr ⟨_, D, rfl, hD, hDpos, ?_, ?_⟩
        · rw [List.length_map]
          have h := congrArg List.length hmapfst
          rw [List.length_map] at h
          rw [h]
        · intro r hr
          rcases List.mem_map.mp hr with ⟨q, hq, hqr⟩
          rcases q with ⟨a, row⟩
          have hqz : (a, row) ∈ s.records.zip m := (List.mem_filter.mp hq).1
          rw [← hqr]
          exact hrows row (List.of_mem_zip hqz).2

theorem WF_applyOps (ops : List Op) (hval : ∀ op ∈ ops, ValidOp op) :
    ∀ s, WF s → WF (applyOps s ops) := by
  induction ops with
  | nil =>
    intro s h
    exact h
  | cons op rest ih =>
    intro s h
    rw [applyOps, List.foldl_cons]
    have h1 : WF (applyOp s op) := by
      match op with
      | .ins batch =>
        have hv : ValidOp (Op.ins batch) := hval (Op.ins batch) (by simp)
        exact WF_insert s batch h hv
      | .del paths => exact WF_delete s paths h
    exact ih (fun o ho => hval o (by simp [ho])) _ h1

/-- The alignment invariant follows from well-formedness. -/
theorem WF_align {s : StoreState} (h : WF s) :
    s.records.length = s.rowCount := by
  rcases h with ⟨hemb, hrec, _⟩ | ⟨m, _, hm, _, _, hlen, _⟩
  · simp [hrec, StoreState.rowCount, hemb]
  · simp [StoreState.rowCount, hm, hlen]

/-! ### Claim theorems -/

/-- C10: a search on a store with no records returns the empty list without
    error, whatever the other arguments are — including an invalid metric,
    search mode or sample rate and a query of the wrong dimension — because
    the empty-store check precedes every validation step. -/
theorem C10_empty_store_short_circuit (s : StoreState) (cfg : VectorConfig)
    (ca ma : Bool) (q : List ℚ) (k : Nat) (dev mode : Option String)
    (rate : Option ℚ) (mb : Option Nat) (met : Option String)
    (h : s.records = []) :
    search s cfg ca ma q k dev mode rate mb met = .ok [] := by
  rw [search]
  simp [h]

/-- Witness for C10: a store whose matrix is nonempty but whose record list
    is empty, searched with an invalid metric, invalid mode, out-of-range
    sample rate and a wrong-dimension query, still returns `[]`. -/
theorem C10_witness :
    search ⟨[], some [[1, 0]], some 2⟩ ⟨"cpu", "ip", "exact", ⟨1⟩, none⟩
      false false [1, 2, 3] 5 (some "gpu7") (some "fuzzy") (some (-3))
      (some 0) (some "cosine") = .ok [] :=
  C10_empty_store_short_circuit _ _ false false _ 5 _ _ _ _ _ rfl

/-- C9 counterexample: the empty string is not one of auto/cuda/mps/cpu,
    even case-insensitively, yet `resolve_device` does not fail on it:
    Python's `preferred or "auto"` treats `""` as falsy and resolves it as
    `auto` (returning "cpu" when no accelerator is available). -/
theorem C9_counterexample :
    (strLower "" ≠ "auto" ∧ strLower "" ≠ "cuda" ∧ strLower "" ≠ "mps" ∧
      strLower "" ≠ "cpu") ∧
    resolve_device false false (some "") = .ok "cpu" := by
  constructor
  · refine ⟨?_, ?_, ?_, ?_⟩ <;> decide
  · rfl

/-- C9 amended: device preference resolution, compared case-insensitively:
    `auto` probes cuda → mps → cpu and returns the first available;
    explicit `cuda`/`mps` fall back to `cpu` when unavailable; `cpu` maps to
    itself; any other *nonempty* value fails; a missing or empty preference
    is treated as `auto`. -/
theorem C9_device_resolution (ca ma : Bool) (p : String) :
    (strLower p = "auto" →
      resolve_device ca ma (some p) =
        .ok (if ca then "cuda" else if ma then "mps" else "cpu")) ∧
    (strLower p = "cuda" →
      resolve_device ca ma (some p) = .ok (if ca then "cuda" else "cpu")) ∧
    (strLower p = "mps" →
      resolve_device ca ma (some p) = .ok (if ma then "mps" else "cpu")) ∧
    (strLower p = "cpu" → resolve_device ca ma (some p) = .ok "cpu") ∧
    (p ≠ "" → strLower p ≠ "auto" → strLower p ≠ "cuda" →
      strLower p ≠ "mps" → strLower p ≠ "cpu" →
      resolve_device ca ma (some p) = .error .badDevice) ∧
    (resolve_device ca ma none =
      .ok (if ca then "cuda" else if ma then "mps" else "cpu")) ∧
    (resolve_device ca ma (some "") =
      .ok (if ca then "cuda" else if ma then "mps" else "cpu")) := by
  have hlow : strLower "auto" = "auto" := by decide
  have hnone : resolve_device ca ma none =
      .ok (if ca then "cuda" else if ma then "mps" else "cpu") := by
    simp [resolve_device, pyOr, hlow]
  have hempty : resolve_device ca ma (some "") =
      .ok (if ca then "cuda" else if ma then "mps" else "cpu") := by
    simp [resolve_device, pyOr, hlow]
  by_cases hp0 : p = ""
  · subst hp0
    exact ⟨fun h => absurd h (by decide), fun h => absurd h (by decide),
      fun h => absurd h (by decide), fun h => absurd h (by decide),
      fun h => absurd rfl h, hnone, hempty⟩
  · have hch : pyOr (some p) "auto" = p := by simp [pyOr, hp0]
    refine ⟨?_, ?_, ?_, ?_, ?_, hnone, hempty⟩
    · intro h
      simp [resolve_device, hch, h]
    · intro h
      simp [resolve_device, hch, h]
    · intro h
      simp [resolve_device, hch, h]
    · intro h
      simp [resolve_device, hch, h]
    · intro _ hna hnc hnm hncp
      simp only [resolve_device, hch]
      rw [if_neg hna, if_neg hnc, if_neg hnm, if_neg hncp]

/-- Witness for C9: explicit uppercase preferences resolve with fallback,
    and an unknown nonempty preference fails. -/
theorem C9_witness :
    resolve_device false true (some "CUDA") = .ok "cpu" ∧
    resolve_device false true (some "Auto") = .ok "mps" ∧
    resolve_device true true (some "tpu") = .error .badDevice :=
  ⟨(C9_device_resolution false true "CUDA").2.1 (by decide),
   (C9_device_resolution false true "Auto").1 (by decide),
   (C9_device_resolution true true "tpu").2.2.2.2.1 (by decide) (by decide)
     (by decide) (by decide) (by decide)⟩

/-- C5: a nonempty rectangular batch inserted into a store with no
    established dimension succeeds and fixes the dimension; inserted into a
    store with an established dimension `D ≠ d` it fails with the dimension
    mismatch error, and the store state is exactly as before the call. -/
theorem C5_dimension_lock_in (s : StoreState) (batch : List VectorRecord)
    (d : Nat) (hne : batch ≠ [])
    (hrect : ∀ r ∈ batch, r.embedding.length = d) :
    (s.dimension = none →
      ∃ m, insert s batch =
        .ok (⟨s.records ++ batch.map VectorRecord.toMeta, some m, some d⟩,
          batch.length)) ∧
    (∀ D, s.dimension = some D → d ≠ D →
      insert s batch = .error .dimensionMismatch ∧
      applyOp s (.ins batch) = s) := by
  constructor
  · intro h
    exact ⟨_, insert_ok s batch d hne hrect (Or.inl h)⟩
  · intro D hD hdd
    have he := insert_mismatch s batch d D hne hrect hD hdd
    exact ⟨he, by simp [applyOp, he]⟩

/-- Witness for C5: a store locked to dimension 2 rejects a 1-dimensional
    insert and is left unchanged. -/
theorem C5_witness :
    insert ⟨[⟨"a.py", 1, 2, "h"⟩], some [[1, 0]], some 2⟩
        [⟨[5], "b.py", 1, 1, "g"⟩] = .error .dimensionMismatch ∧
    applyOp ⟨[⟨"a.py", 1, 2, "h"⟩], some [[1, 0]], some 2⟩
        (.ins [⟨[5], "b.py", 1, 1, "g"⟩]) =
      ⟨[⟨"a.py", 1, 2, "h"⟩], some [[1, 0]], some 2⟩ :=
  (C5_dimension_lock_in _ _ 1 (by decide) (by decide)).2 2 rfl (by decide)

/-- C4 counterexample: metadata with an empty record list next to a matrix
    with one row loads successfully — the mismatch check at store.py line 68
    requires `records` to be truthy, so this corrupt pair is not detected,
    contradicting the claim that every mismatched pair (including the
    empty-records case) fails. -/
theorem C4_counterexample :
    load ⟨some (none, []), some [[1]]⟩ = .ok ⟨[], some [[1]], some 1⟩ := by
  rfl

/-- C4 amended: when both files exist and the metadata record list is
    NONEMPTY, a row-count mismatch fails with the corruption error; on
    agreement, load returns exactly the stored records and matrix (no
    truncation); with an empty record list the matrix is accepted as-is. -/
theorem C4_load_corruption (dim : Option Nat) (records : List MetaRecord)
    (m : Matrix) :
    (records ≠ [] → m.length ≠ records.length →
      load ⟨some (dim, records), some m⟩ = .error .corrupt) ∧
    (m.length = records.length →
      ∃ dfin, load ⟨some (dim, records), some m⟩ =
        .ok ⟨records, some m, dfin⟩) ∧
    (records = [] →
      ∃ dfin, load ⟨some (dim, records), some m⟩ =
        .ok ⟨records, some m, dfin⟩) := by
  refine ⟨?_, ?_, ?_⟩
  · intro hne hmm
    simp only [load]
    rw [if_pos ⟨by simpa [List.isEmpty_iff] using hne, hmm⟩]
  · intro hlen
    refine ⟨if dim = none ∧ 0 < numel m then some (m.headD []).length
      else dim, ?_⟩
    simp only [load]
    rw [if_neg (fun hc => hc.2 hlen)]
  · intro hnil
    refine ⟨if dim = none ∧ 0 < numel m then some (m.headD []).length
      else dim, ?_⟩
    simp only [load]
    rw [if_neg (fun hc => hc.1 (by simpa [List.isEmpty_iff] using hnil))]

/-- Witness for C4: a one-record metadata file with a two-row matrix is
    rejected as corrupt. -/
theorem C4_witness :
    load ⟨some (none, [⟨"a.py", 1, 1, "h"⟩]), some [[1], [2]]⟩ =
      .error .corrupt :=
  (C4_load_corruption none [⟨"a.py", 1, 1, "h"⟩] [[1], [2]]).1 (by decide)
    (by decide)

theorem zip_fst_snd : ∀ Z : List (α × β),
    (Z.map Prod.fst).zip (Z.map Prod.snd) = Z
  | [] => rfl
  | ⟨a, b⟩ :: t => by simp [zip_fst_snd t]

/-- Map-fst of the filtered record/row pairs is the filtered record list
    (for an aligned store). -/
theorem filter_zip_map_fst (recs : List MetaRecord) (m : Matrix)
    (hlen : m.length = recs.length) (paths : List String) :
    ((recs.zip m).filter (fun q => decide (¬ q.1.path ∈ paths))).map
        Prod.fst = recs.filter (fun r => decide (¬ r.path ∈ paths)) := by
  have h := List.filter_map Prod.fst (recs.zip m)
    (p := fun r => decide (¬ r.path ∈ paths))
  rw [List.map_fst_zip _ _ (le_of_eq hlen.symm)] at h
  exact h.symm

/-- The record/row pairs after `delete_by_paths` are exactly the pairs
    whose record survives the path filter, in their original order. -/
theorem delete_zip (s : StoreState) (paths : List String) (hwf : WF s) :
    (delete_by_paths s paths).1.records.zip
        (delete_by_paths s paths).1.rowsList =
      (s.records.zip s.rowsList).filter
        (fun q => ¬ q.1.path ∈ paths) := by
  by_cases hdel : s.records.filter (fun r => r.path ∈ paths) = []
  · rw [delete_eq_nomatch s paths hdel]
    have hall : ∀ r ∈ s.records, ¬ r.path ∈ paths := by
      intro r hr
      have := List.filter_eq_nil_iff.mp hdel r hr
      simpa using this
    refine (List.filter_eq_self.mpr ?_).symm
    intro q hq
    have : q.1 ∈ s.records := (List.of_mem_zip hq).1
    simpa using hall q.1 this
  · have hrec : s.records ≠ [] := by
      intro hc
      rw [hc] at hdel
      exact hdel rfl
    rcases hwf with ⟨_, hr, _⟩ | ⟨m, D, hm, hD, hDpos, hlen, hrows⟩
    · exact absurd hr hrec
    · have hmne : m ≠ [] := by
        intro hc
        rw [hc] at hlen
        exact hrec (List.length_eq_zero.mp hlen.symm)
      have hnum : numel m ≠ 0 := fun hc =>
        hmne ((numel_eq_zero_iff hrows hDpos).mp hc)
      have hrl : s.rowsList = m := by
        rw [StoreState.rowsList, hm]
        rfl
      rw [delete_eq s paths m hm hlen hnum hdel, hrl]
      by_cases hkeep0 :
          s.records.filter (fun r => decide (¬ r.path ∈ paths)) = []
      · simp only [hkeep0, if_pos rfl]
        have hznil : ((s.records.zip m).filter
            (fun q => decide (¬ q.1.path ∈ paths))) = [] := by
          have h := congrArg List.length
            (filter_zip_map_fst s.records m hlen paths)
          rw [List.length_map, hkeep0] at h
          exact List.length_eq_zero.mp h
        rw [hznil]
        rfl
      · simp only [if_neg hkeep0]
        rw [StoreState.rowsList]
        show (s.records.filter (fun r => decide (¬ r.path ∈ paths))).zip
            (((s.records.zip m).filter
              (fun q => decide (¬ q.1.path ∈ paths))).map Prod.snd) = _
        rw [← filter_zip_map_fst s.records m hlen paths, zip_fst_snd]

/-- C7 counterexample: on the reachable dimension-0 store — built by
    inserting one record with an EMPTY embedding — deleting that record's
    path removes the record but NOT its matrix row: the row update at
    store.py lines 230-235 is guarded by `numel() > 0`, which is false for
    a matrix of zero-length rows, so the matrix keeps its single row while
    the record list becomes empty.  This refutes the claim's "removes
    exactly the records (and their matrix rows)" for every store. -/
theorem C7_counterexample :
    insert emptyStore [⟨[], "a.py", 1, 1, "h"⟩] =
      .ok (⟨[⟨"a.py", 1, 1, "h"⟩], some [[]], some 0⟩, 1) ∧
    delete_by_paths ⟨[⟨"a.py", 1, 1, "h"⟩], some [[]], some 0⟩ ["a.py"] =
      (⟨[], some [[]], some 0⟩, 1, true) ∧
    (⟨[], some [[]], some 0⟩ : StoreState).records.length = 0 ∧
    (⟨[], some [[]], some 0⟩ : StoreState).rowCount = 1 :=
  ⟨rfl, rfl, rfl, rfl⟩

/-- C7 amended: on every well-formed store (aligned, with positive
    established dimension), `delete_by_paths` removes exactly the records
    whose path is in the input set and their matrix rows, preserving the
    original relative order of the surviving record/row pairs, and returns
    the exact number removed; when nothing matches it returns 0 and
    performs no save.  (On a dimension-0 store the matching records are
    removed but their empty matrix rows are left in place, per the
    counterexample.) -/
theorem C7_delete_correctness (s : StoreState) (paths : List String)
    (hwf : WF s) :
    ((delete_by_paths s paths).1.records =
      s.records.filter (fun r => ¬ r.path ∈ paths)) ∧
    ((delete_by_paths s paths).2.1 =
      (s.records.filter (fun r => r.path ∈ paths)).length) ∧
    ((delete_by_paths s paths).1.records.zip
        (delete_by_paths s paths).1.rowsList =
      (s.records.zip s.rowsList).filter
        (fun q => ¬ q.1.path ∈ paths)) ∧
    (s.records.filter (fun r => r.path ∈ paths) = [] →
      delete_by_paths s paths = (s, 0, false)) := by
  refine ⟨?_, ?_, delete_zip s paths hwf, delete_eq_nomatch s paths⟩
  all_goals
    by_cases hdel : s.records.filter (fun r => r.path ∈ paths) = []
  · rw [delete_eq_nomatch s paths hdel]
    refine (List.filter_eq_self.mpr ?_).symm
    intro r hr
    have := List.filter_eq_nil_iff.mp hdel r hr
    simpa using this
  · have hrec : s.records ≠ [] := by
      intro hc
      rw [hc] at hdel
      exact hdel rfl
    rcases hwf with ⟨_, hr, _⟩ | ⟨m, D, hm, hD, hDpos, hlen, hrows⟩
    · exact absurd hr hrec
    · have hmne : m ≠ [] := by
        intro hc
        rw [hc] at hlen
        exact hrec (List.length_eq_zero.mp hlen.symm)
      have hnum : numel m ≠ 0 := fun hc =>
        hmne ((numel_eq_zero_iff hrows hDpos).mp hc)
      rw [delete_eq s paths m hm hlen hnum hdel]
  · rw [delete_eq_nomatch s paths hdel, hdel]
    rfl
  · have hrec : s.records ≠ [] := by
      intro hc
      rw [hc] at hdel
      exact hdel rfl
    rcases hwf with ⟨_, hr, _⟩ | ⟨m, D, hm, hD, hDpos, hlen, hrows⟩
    · exact absurd hr hrec
    · have hmne : m ≠ [] := by
        intro hc
        rw [hc] at hlen
        exact hrec (List.length_eq_zero.mp hlen.symm)
      have hnum : numel m ≠ 0 := fun hc =>
        hmne ((numel_eq_zero_iff hrows hDpos).mp hc)
      rw [delete_eq s paths m hm hlen hnum hdel]

/-- Witness for C7: deleting one of two paths from an aligned store removes
    exactly that record and row, returning 1. -/
theorem C7_witness :
    ((delete_by_paths ⟨[⟨"a.py", 1, 2, "h"⟩, ⟨"b.py", 3, 4, "g"⟩],
        some [[1, 0], [0, 1]], some 2⟩ ["a.py"]).1.records =
      [⟨"b.py", 3, 4, "g"⟩]) ∧
    ((delete_by_paths ⟨[⟨"a.py", 1, 2, "h"⟩, ⟨"b.py", 3, 4, "g"⟩],
        some [[1, 0], [0, 1]], some 2⟩ ["a.py"]).2.1 = 1) := by
  have h := C7_delete_correctness
    ⟨[⟨"a.py", 1, 2, "h"⟩, ⟨"b.py", 3, 4, "g"⟩],
      some [[1, 0], [0, 1]], some 2⟩ ["a.py"]
    (Or.inr ⟨[[1, 0], [0, 1]], 2, rfl, rfl, by decide, by decide, by decide⟩)
  refine ⟨?_, ?_⟩
  · rw [h.1]
    rfl
  · rw [h.2.1]
    rfl

/-- C8 counterexample: a store built by inserting a single record with an
    EMPTY embedding (dimension 0) and then deleting it ends with the matrix
    still present and the dimension still locked to 0 — the reset at
    store.py lines 230-235 is guarded by `numel() > 0` — so a subsequent
    1-dimensional insert fails instead of succeeding. -/
theorem C8_counterexample :
    insert emptyStore [⟨[], "a.py", 1, 1, "h"⟩] =
      .ok (⟨[⟨"a.py", 1, 1, "h"⟩], some [[]], some 0⟩, 1) ∧
    delete_by_paths ⟨[⟨"a.py", 1, 1, "h"⟩], some [[]], some 0⟩ ["a.py"] =
      (⟨[], some [[]], some 0⟩, 1, true) ∧
    insert ⟨[], some [[]], some 0⟩ [⟨[1], "b.py", 1, 1, "g"⟩] =
      .error .dimensionMismatch := by
  refine ⟨rfl, rfl, rfl⟩

/-- C8 amended: on a well-formed store (positive dimension), deleting every
    remaining record frees the matrix and resets the dimension (the state
    becomes the empty store), and a subsequent insert of ANY rectangular
    nonempty batch — of any dimension — succeeds. -/
theorem C8_empty_after_delete (s : StoreState) (P : List String)
    (hwf : WF s) (hne : s.records ≠ [])
    (hall : ∀ r ∈ s.records, r.path ∈ P) :
    (delete_by_paths s P).1 = emptyStore ∧
    (delete_by_paths s P).2.1 = s.records.length ∧
    ∀ (batch : List VectorRecord) (d : Nat), batch ≠ [] →
      (∀ r ∈ batch, r.embedding.length = d) →
      ∃ m, insert (delete_by_paths s P).1 batch =
        .ok (⟨batch.map VectorRecord.toMeta, some m, some d⟩,
          batch.length) := by
  rcases hwf with ⟨_, hr, _⟩ | ⟨m, D, hm, hD, hDpos, hlen, hrows⟩
  · exact absurd hr hne
  · have hfilterdel : s.records.filter (fun r => r.path ∈ P) = s.records :=
      List.filter_eq_self.mpr (fun r hrr => by simpa using hall r hrr)
    have hdel : s.records.filter (fun r => r.path ∈ P) ≠ [] := by
      rw [hfilterdel]
      exact hne
    have hmne : m ≠ [] := by
      intro hc
      rw [hc] at hlen
      exact hne (List.length_eq_zero.mp hlen.symm)
    have hnum : numel m ≠ 0 := fun hc =>
      hmne ((numel_eq_zero_iff hrows hDpos).mp hc)
    have hkeep0 : s.records.filter (fun r => decide (¬ r.path ∈ P)) = [] :=
      List.filter_eq_nil_iff.mpr (fun r hrr => by simpa using hall r hrr)
    rw [delete_eq s P m hm hlen hnum hdel]
    simp only [hkeep0, if_pos rfl]
    refine ⟨rfl, ?_, ?_⟩
    · rw [hfilterdel]
    · intro batch d hbne hrect
      exact ⟨_, insert_ok ⟨[], none, none⟩ batch d hbne hrect (Or.inl rfl)⟩

/-- Witness for C8: deleting the single record of a 2-dimensional store
    empties it, and inserting a 3-dimensional batch then succeeds. -/
theorem C8_witness :
    (delete_by_paths ⟨[⟨"a.py", 1, 2, "h"⟩], some [[1, 0]], some 2⟩
        ["a.py"]).1 = emptyStore ∧
    ∃ m, insert (delete_by_paths ⟨[⟨"a.py", 1, 2, "h"⟩], some [[1, 0]],
        some 2⟩ ["a.py"]).1 [⟨[1, 2, 3], "c.py", 1, 1, "k"⟩] =
      .ok (⟨[⟨"c.py", 1, 1, "k"⟩], some m, some 3⟩, 1) := by
  have h := C8_empty_after_delete
    ⟨[⟨"a.py", 1, 2, "h"⟩], some [[1, 0]], some 2⟩ ["a.py"]
    (Or.inr ⟨[[1, 0]], 2, rfl, rfl, by decide, by decide, by decide⟩)
    (by decide) (by decide)
  exact ⟨h.1, h.2.2 [⟨[1, 2, 3], "c.py", 1, 1, "k"⟩] 3 (by decide)
    (by decide)⟩

/-- C6: approximate candidate selection is deterministic systematic
    sampling: with rate `r` and stride `s = max(⌊1/r⌋, 1)`, the candidate
    set is exactly the multiples of `s` below the record count; index 0 is
    always selected; rate 1 selects every index; and the candidate list is
    a subset of the exact-mode candidate pool `range n`.  (Determinism is
    inherent: `_sample_indices` is a pure function of `(total, rate)`.) -/
theorem C6_approx_sampling (n : Nat) (r : ℚ) (hn : 0 < n) (h0 : 0 < r)
    (h1 : r ≤ 1) :
    (∀ i, i ∈ sample_indices n r ↔
      ((∃ j, i = j * max (⌊1 / r⌋).toNat 1) ∧ i < n)) ∧
    0 ∈ sample_indices n r ∧
    (r = 1 → sample_indices n r = List.range n) ∧
    ∀ i ∈ sample_indices n r, i ∈ List.range n := by
  have hchar : ∀ i, i ∈ sample_indices n r ↔
      ((∃ j, i = j * max (⌊1 / r⌋).toNat 1) ∧ i < n) := by
    intro i
    rw [sample_indices, if_neg (by omega)]
    by_cases hr1 : 1 ≤ r
    · have hr : r = 1 := le_antisymm h1 hr1
      subst hr
      rw [if_pos le_rfl]
      have hfl : (⌊(1 : ℚ) / 1⌋).toNat = 1 := by norm_num
      rw [hfl, List.mem_range]
      constructor
      · intro h
        exact ⟨⟨i, by simp⟩, h⟩
      · rintro ⟨_, h⟩
        exact h
    · rw [if_neg hr1]
      have hstep : 0 < max (⌊1 / r⌋).toNat 1 :=
        Nat.lt_of_lt_of_le Nat.one_pos (Nat.le_max_right _ 1)
      have hcnt : (n + max (⌊1 / r⌋).toNat 1 - 1) / max (⌊1 / r⌋).toNat 1 =
          (n - 1) / max (⌊1 / r⌋).toNat 1 + 1 := by
        have he : n + max (⌊1 / r⌋).toNat 1 - 1 =
            (n - 1) + max (⌊1 / r⌋).toNat 1 := by omega
        rw [he, Nat.add_div_right _ hstep]
      rw [List.mem_range']
      constructor
      · rintro ⟨j, hj, hij⟩
        rw [hcnt] at hj
        have hle : j ≤ (n - 1) / max (⌊1 / r⌋).toNat 1 := by omega
        have hmul := (Nat.le_div_iff_mul_le hstep).mp hle
        refine ⟨⟨j, by rw [hij]; ring⟩, ?_⟩
        rw [hij]
        have : max (⌊1 / r⌋).toNat 1 * j = j * max (⌊1 / r⌋).toNat 1 :=
          Nat.mul_comm _ _
        omega
      · rintro ⟨⟨j, hij⟩, hlt⟩
        refine ⟨j, ?_, by rw [hij]; ring⟩
        rw [hcnt]
        have hmul : j * max (⌊1 / r⌋).toNat 1 ≤ n - 1 := by omega
        have := (Nat.le_div_iff_mul_le hstep).mpr hmul
        omega
  refine ⟨hchar, (hchar 0).mpr ⟨⟨0, by simp⟩, hn⟩, ?_, ?_⟩
  · intro h
    subst h
    rw [sample_indices, if_neg (by omega), if_pos le_rfl]
  · intro i hi
    rw [List.mem_range]
    exact ((hchar i).mp hi).2

/-- Witness for C6: sampling 5 records at rate 1/2 selects the indices
    0, 2, 4. -/
theorem C6_witness :
    (∀ i, i ∈ sample_indices 5 (1 / 2) ↔
      ((∃ j, i = j * max (⌊1 / (1 / 2 : ℚ)⌋).toNat 1) ∧ i < 5)) ∧
    0 ∈ sample_indices 5 (1 / 2) :=
  ⟨(C6_approx_sampling 5 (1 / 2) (by decide) (by norm_num)
      (by norm_num)).1,
   (C6_approx_sampling 5 (1 / 2) (by decide) (by norm_num)
      (by norm_num)).2.1⟩

theorem scoreGE_fst_le {a b : ℚ × Nat} (h : scoreGE a b) : b.1 ≤ a.1 := by
  rcases h with h | ⟨e, _⟩
  · exact le_of_lt h
  · exact le_of_eq e.symm

/-- C2: exact-mode search with a valid metric on a nonempty well-formed
    store returns at most `top_k` results: rows carrying the highest scores
    (dot product for `ip`, negative squared distance for `l2`), listed in
    descending score order; every stored row not returned scores no higher
    than any returned row. -/
theorem C2_exact_search_correctness (s : StoreState) (cfg : VectorConfig)
    (ca ma : Bool) (q : List ℚ) (k : Nat) (dev mode : Option String)
    (rate : Option ℚ) (mb : Option Nat) (met : Option String) (m : Matrix)
    (hm : s.embeddings = some m) (hne : s.records ≠ [])
    (hnumel : numel m ≠ 0) (hq : q.length = (m.headD []).length)
    (hmet : strLower (pyOr met cfg.metric) = "ip" ∨
      strLower (pyOr met cfg.metric) = "l2")
    (hmode : strLower (pyOr mode cfg.search_mode) = "exact")
    (hdev : ∃ d, resolve_device ca ma (some (pyOr dev cfg.device)) = .ok d) :
    ∃ res, search s cfg ca ma q k dev mode rate mb met = .ok res ∧
      res.length = min k s.records.length ∧
      res.Pairwise (fun a b => b.score ≤ a.score) ∧
      ∃ chosen : List Nat, chosen.Nodup ∧
        (∀ i ∈ chosen, i < s.records.length) ∧
        res = chosen.map (fun i =>
          resultOf s (rowScore (strLower (pyOr met cfg.metric)) q
            (m.getD i []), i)) ∧
        ∀ i ∈ chosen, ∀ j, j < s.records.length → j ∉ chosen →
          rowScore (strLower (pyOr met cfg.metric)) q (m.getD j []) ≤
            rowScore (strLower (pyOr met cfg.metric)) q (m.getD i []) := by
  refine ⟨_, search_exact_eq s cfg ca ma q k dev mode rate mb met m hm hne
    hnumel hq hmet hmode hdev, ?_, ?_, ?_⟩
  · rw [List.length_map, selectTop_length, List.length_map,
      List.length_range]
  · refine List.Pairwise.map _ ?_ (selectTop_sorted k _)
    intro a b hab
    exact scoreGE_fst_le hab
  · have hnd : ((List.range s.records.length).map
        (fun i => (rowScore (strLower (pyOr met cfg.metric)) q
          (m.getD i []), i))).Nodup :=
      pairs_nodup _ (List.nodup_range _)
    have hpairmem : ∀ p ∈ (List.range s.records.length).map
        (fun i => (rowScore (strLower (pyOr met cfg.metric)) q
          (m.getD i []), i)),
        p = (rowScore (strLower (pyOr met cfg.metric)) q
          (m.getD p.2 []), p.2) ∧ p.2 < s.records.length := by
      intro p hp
      rcases List.mem_map.mp hp with ⟨j, hj, hpj⟩
      rw [← hpj]
      exact ⟨rfl, List.mem_range.mp hj⟩
    refine ⟨(selectTop k ((List.range s.records.length).map
      (fun i => (rowScore (strLower (pyOr met cfg.metric)) q
        (m.getD i []), i)))).map Prod.snd, ?_, ?_, ?_, ?_⟩
    · have hperm := (sortPairs_perm ((List.range s.records.length).map
        (fun i => (rowScore (strLower (pyOr met cfg.metric)) q
          (m.getD i []), i)))).map Prod.snd
      have hsnd : ((List.range s.records.length).map
          (fun i => (rowScore (strLower (pyOr met cfg.metric)) q
            (m.getD i []), i))).map Prod.snd =
          List.range s.records.length := by
        rw [List.map_map]
        exact List.map_id _
      have hnd2 : ((sortPairs ((List.range s.records.length).map
          (fun i => (rowScore (strLower (pyOr met cfg.metric)) q
            (m.getD i []), i)))).map Prod.snd).Nodup := by
        rw [hperm.nodup_iff, hsnd]
        exact List.nodup_range _
      exact hnd2.sublist ((List.take_sublist k _).map Prod.snd)
    · intro i hi
      rcases List.mem_map.mp hi with ⟨p, hp, hpi⟩
      rw [← hpi]
      exact (hpairmem p (selectTop_subset hp)).2
    · rw [List.map_map]
      refine (List.map_congr_left ?_).symm
      intro p hp
      have h := (hpairmem p (selectTop_subset hp)).1
      show resultOf s (rowScore (strLower (pyOr met cfg.metric)) q
        (m.getD p.2 []), p.2) = resultOf s p
      rw [← h]
    · intro i hi j hj hjnot
      rcases List.mem_map.mp hi with ⟨p, hp, hpi⟩
      have hfj : (rowScore (strLower (pyOr met cfg.metric)) q
          (m.getD j []), j) ∈ (List.range s.records.length).map
          (fun i => (rowScore (strLower (pyOr met cfg.metric)) q
            (m.getD i []), i)) :=
        List.mem_map_of_mem _ (List.mem_range.mpr hj)
      have hfjnot : (rowScore (strLower (pyOr met cfg.metric)) q
          (m.getD j []), j) ∉ selectTop k ((List.range s.records.length).map
          (fun i => (rowScore (strLower (pyOr met cfg.metric)) q
            (m.getD i []), i))) := by
        intro hc
        exact hjnot (List.mem_map_of_mem Prod.snd hc)
      rcases selectTop_dominates_unselected hfj hfjnot with ⟨_, hdom⟩
      have := scoreGE_fst_le (hdom p hp)
      have hpfst : p.1 = rowScore (strLower (pyOr met cfg.metric)) q
          (m.getD i []) := by
        have h := (hpairmem p (selectTop_subset hp)).1
        rw [h, hpi]
      rw [← hpfst]
      exact this

/-- Witness for C2: searching a two-row store for the top hit. -/
theorem C2_witness :
    ∃ res, search ⟨[⟨"a.py", 1, 2, "h"⟩, ⟨"b.py", 3, 4, "g"⟩],
        some [[1, 0], [0, 1]], some 2⟩ ⟨"cpu", "ip", "exact", ⟨1⟩, none⟩
        false false [1, 0] 1 none none none none none = .ok res ∧
      res.length = min 1 2 ∧
      res.Pairwise (fun a b => b.score ≤ a.score) ∧
      ∃ chosen : List Nat, chosen.Nodup ∧ (∀ i ∈ chosen, i < 2) ∧
        res = chosen.map (fun i =>
          resultOf ⟨[⟨"a.py", 1, 2, "h"⟩, ⟨"b.py", 3, 4, "g"⟩],
            some [[1, 0], [0, 1]], some 2⟩
            (rowScore (strLower (pyOr none "ip")) [1, 0]
              ([[1, 0], [0, 1]].getD i []), i)) ∧
        ∀ i ∈ chosen, ∀ j, j < 2 → j ∉ chosen →
          rowScore (strLower (pyOr none "ip")) [1, 0]
              ([[1, 0], [0, 1]].getD j []) ≤
            rowScore (strLower (pyOr none "ip")) [1, 0]
              ([[1, 0], [0, 1]].getD i []) :=
  C2_exact_search_correctness _ _ false false [1, 0] 1 none none none none
    none [[1, 0], [0, 1]] rfl (by decide) (by decide) (by decide)
    (Or.inl (by decide)) (by decide) ⟨"cpu", rfl⟩

/-- C3: for fixed store contents and a fixed query, exact-mode search
    returns the same result list for every value of `max_vram_mb`
    (including absent): the chunk size derived by `_chunk_size` only
    partitions the evaluation and never changes the returned ranking. -/
theorem C3_chunk_equivalence (s : StoreState) (cfg : VectorConfig)
    (ca ma : Bool) (q : List ℚ) (k : Nat) (dev mode : Option String)
    (rate : Option ℚ) (met : Option String) (mb1 mb2 : Option Nat)
    (m : Matrix) (hm : s.embeddings = some m) (hne : s.records ≠ [])
    (hnumel : numel m ≠ 0) (hq : q.length = (m.headD []).length)
    (hmet : strLower (pyOr met cfg.metric) = "ip" ∨
      strLower (pyOr met cfg.metric) = "l2")
    (hmode : strLower (pyOr mode cfg.search_mode) = "exact")
    (hdev : ∃ d, resolve_device ca ma (some (pyOr dev cfg.device)) = .ok d) :
    search s cfg ca ma q k dev mode rate mb1 met =
      search s cfg ca ma q k dev mode rate mb2 met := by
  rw [search_exact_eq s cfg ca ma q k dev mode rate mb1 met m hm hne hnumel
      hq hmet hmode hdev,
    search_exact_eq s cfg ca ma q k dev mode rate mb2 met m hm hne hnumel
      hq hmet hmode hdev]

/-- Witness for C3: a 3-row store searched with no budget and with a budget
    that forces single-row chunks returns identical results. -/
theorem C3_witness :
    search ⟨[⟨"a.py", 1, 2, "h"⟩, ⟨"b.py", 3, 4, "g"⟩, ⟨"c.py", 5, 6, "j"⟩],
        some [[1, 0], [0, 1], [1, 1]], some 2⟩
        ⟨"cpu", "ip", "exact", ⟨1⟩, none⟩ false false [1, 0] 2
        none none none none none =
      search ⟨[⟨"a.py", 1, 2, "h"⟩, ⟨"b.py", 3, 4, "g"⟩, ⟨"c.py", 5, 6, "j"⟩],
        some [[1, 0], [0, 1], [1, 1]], some 2⟩
        ⟨"cpu", "ip", "exact", ⟨1⟩, none⟩ false false [1, 0] 2
        none none none (some 0) none :=
  C3_chunk_equivalence _ _ false false [1, 0] 2 none none none none none
    (some 0) [[1, 0], [0, 1], [1, 1]] rfl (by decide) (by decide)
    (by decide) (Or.inl (by decide)) (by decide) ⟨"cpu", rfl⟩

/-- C1 counterexample: two inserts of records with EMPTY embeddings
    (dimension 0) leave the store with 2 metadata records but only 1 matrix
    row — the `numel() == 0` branch at store.py line 127 *replaces* the
    matrix instead of appending, so the alignment invariant fails for
    zero-dimensional stores. -/
theorem C1_counterexample :
    (applyOps emptyStore
        [.ins [⟨[], "a.py", 1, 1, "h"⟩],
         .ins [⟨[], "b.py", 1, 1, "g"⟩]]).records.length = 2 ∧
    (applyOps emptyStore
        [.ins [⟨[], "a.py", 1, 1, "h"⟩],
         .ins [⟨[], "b.py", 1, 1, "g"⟩]]).rowCount = 1 :=
  ⟨rfl, rfl⟩

/-- C1 amended: provided every inserted embedding is nonempty, (a) after
    any sequence of insert/delete operations from the empty store the
    record count equals the matrix row count; (b) a successful insert
    appends the new record/row pairs, in batch order, after the existing
    pairs; (c) a delete keeps exactly the record/row pairs whose record
    survives the path filter, in their original order. -/
theorem C1_alignment_invariant :
    (∀ ops : List Op, (∀ op ∈ ops, ValidOp op) →
      (applyOps emptyStore ops).records.length =
        (applyOps emptyStore ops).rowCount) ∧
    (∀ (s : StoreState) (batch : List VectorRecord) (d : Nat), WF s →
      batch ≠ [] → (∀ r ∈ batch, r.embedding.length = d) →
      ∀ s' c, insert s batch = .ok (s', c) →
        s'.records.zip s'.rowsList =
          s.records.zip s.rowsList ++
            (batch.map VectorRecord.toMeta).zip
              (batch.map VectorRecord.embedding)) ∧
    (∀ (s : StoreState) (paths : List String), WF s →
      (delete_by_paths s paths).1.records.zip
          (delete_by_paths s paths).1.rowsList =
        (s.records.zip s.rowsList).filter
          (fun p => ¬ p.1.path ∈ paths)) := by
  refine ⟨?_, ?_, fun s paths hwf => delete_zip s paths hwf⟩
  · intro ops hval
    exact WF_align (WF_applyOps ops hval emptyStore WF_emptyStore)
  · intro s batch d hwf hbne hrect s' c hins
    rcases hwf with ⟨hemb, hrec, hdimn⟩ | ⟨m, D, hm, hD, hDpos, hlen, hrows⟩
    · rw [insert_ok s batch d hbne hrect (Or.inl hdimn)] at hins
      simp only [Except.ok.injEq, Prod.mk.injEq] at hins
      obtain ⟨hs', -⟩ := hins
      subst hs'
      simp only [hrec, hemb, StoreState.rowsList, Option.getD_some,
        List.nil_append]
      rfl
    · by_cases hdD : d = D
      · subst hdD
        rw [insert_ok s batch d hbne hrect (Or.inr hD)] at hins
        simp only [Except.ok.injEq, Prod.mk.injEq] at hins
        obtain ⟨hs', -⟩ := hins
        subst hs'
        simp only [hm, StoreState.rowsList, Option.getD_some]
        by_cases hm0 : numel m = 0
        · have hmnil : m = [] := (numel_eq_zero_iff hrows hDpos).mp hm0
          have hrecnil : s.records = [] := by
            rw [hmnil] at hlen
            exact List.length_eq_zero.mp hlen.symm
          simp [hm0, hmnil, hrecnil]
        · rw [if_neg hm0]
          exact List.zip_append hlen.symm
      · rw [insert_mismatch s batch d D hbne hrect hD hdD] at hins
        exact absurd hins (by simp)

/-- Witness for C1: insert two 2-dimensional records then delete one path;
    the record count still equals the row count. -/
theorem C1_witness :
    (applyOps emptyStore
        [.ins [⟨[1, 0], "a.py", 1, 2, "h"⟩, ⟨[0, 1], "b.py", 3, 4, "g"⟩],
         .del ["a.py"]]).records.length =
      (applyOps emptyStore
        [.ins [⟨[1, 0], "a.py", 1, 2, "h"⟩, ⟨[0, 1], "b.py", 3, 4, "g"⟩],
         .del ["a.py"]]).rowCount :=
  C1_alignment_invariant.1 _ (by
    intro op hop
    rcases List.mem_cons.mp hop with h | hop
    · subst h
      intro r hr
      fin_cases hr <;> decide
    rcases List.mem_cons.mp hop with h | hop
    · subst h
      trivial
    · exact absurd hop (List.not_mem_nil _))

end CodeIndex
